import Mathlib

/-!
Verification development for the `git-glob-scanner` repository
(`src/src/lib.rs`): a repository-aware file-tree walker that matches the
files of a working tree against glob patterns while excluding `.git`
directories and git-submodule subtrees.

The development shallowly embeds the Rust source:

* Filesystem trees are modelled by the inductive `FsTree`; directory
  entries carry a name and a node, files carry their text content (used
  for reading `.gitmodules`), symlinks record whether their target is a
  directory (this is what `Path::is_dir` observes in the sort
  comparator).

* The two external capabilities used by `lib.rs` are modelled from their
  documented contracts:
  - the pattern compiler (`globset::Glob::new` with default options,
    where `*` and `?` also match the path separator `/`; `**` is
    recursive only as a full path component) becomes `parseGlob` /
    `globMatch`;
  - the sectioned configuration reader (`gix_config::File::from_str`)
    becomes `parseConfig`, producing a list of `ConfigSection`s.

* The traversal collaborator (`ignore::WalkBuilder` with
  `follow_links(false)`, sequential `build()`, `sort_by_file_path`) is
  modelled by `walkList` / `walkEntries`: a preorder walk that sorts the
  children of every directory with the comparator from the source
  (`cmpSib`), applies the source's `filter_entry` predicate
  (`filterEntry`) to every non-root entry, descends only into surviving
  directories, and yields every surviving entry (directories included).
  Gitignore handling, I/O errors and non-UTF-8 names are outside the
  model: trees hold ordinary strings and every read succeeds.

All functions are fuel-free or use structurally sufficient fuel, so they
evaluate by kernel reduction on concrete inputs.
-/

/-! ## Glob patterns (model of the globset pattern compiler, default options) -/

/-- Compiled glob tokens, mirroring `globset`'s token list: literal
character, `?`, `*`, the three recursive-`**` forms (leading `**/`,
trailing `/**`, inner `/**/`), and a bracket character class given by
negation flag and closed character ranges. -/
inductive Tok where
  | lit (c : Char)
  | anyc
  | star
  | recPre
  | recSuf
  | recMid
  | cls (neg : Bool) (ranges : List (Char × Char))
deriving DecidableEq

/-- Weight of a token for the fuel bound of the backtracking matcher. -/
def tokW : Tok → Nat
  | .recPre => 3
  | .recSuf => 3
  | .recMid => 4
  | _ => 1

/-- Does character `c` fall in the (possibly negated) class ranges. -/
def classMatch (neg : Bool) (ranges : List (Char × Char)) (c : Char) : Bool :=
  let inR := ranges.any (fun r => r.1.toNat ≤ c.toNat ∧ c.toNat ≤ r.2.toNat)
  if neg then !inR else inR

/-- Fuel-bounded backtracking matcher for a token list against a list of
characters.  With default `globset` options (`literal_separator` off),
`*` and `?` match every character including `/`.  The recursive tokens
are expanded by their regex translations: `recPre` is `(?:|.*/)`,
`recSuf` is `(?:|/.*)`, `recMid` is `(?:/|/.*/)`.  Every recursive call
strictly decreases `2 * cs.length + (ts.map tokW).sum`, so the fuel used
by `globMatch` is always sufficient. -/
def tmatchF : Nat → List Tok → List Char → Bool
  | 0, _, _ => false
  | fuel+1, ts, cs =>
    match ts, cs with
    | [], [] => true
    | [], _ :: _ => false
    | Tok.lit c :: ts2, [] => false && tmatchF fuel (Tok.lit c :: ts2) []
    | Tok.lit c :: ts2, x :: xs => c == x && tmatchF fuel ts2 xs
    | Tok.anyc :: _, [] => false
    | Tok.anyc :: ts2, _ :: xs => tmatchF fuel ts2 xs
    | Tok.cls _ _ :: _, [] => false
    | Tok.cls neg rs :: ts2, x :: xs => classMatch neg rs x && tmatchF fuel ts2 xs
    | Tok.star :: ts2, [] => tmatchF fuel ts2 []
    | Tok.star :: ts2, x :: xs => tmatchF fuel ts2 (x :: xs) || tmatchF fuel (Tok.star :: ts2) xs
    | Tok.recPre :: ts2, cs => tmatchF fuel ts2 cs || tmatchF fuel (Tok.star :: Tok.lit '/' :: ts2) cs
    | Tok.recSuf :: ts2, cs => tmatchF fuel ts2 cs || tmatchF fuel (Tok.lit '/' :: Tok.star :: ts2) cs
    | Tok.recMid :: ts2, cs =>
      tmatchF fuel (Tok.lit '/' :: ts2) cs ||
      tmatchF fuel (Tok.lit '/' :: Tok.star :: Tok.lit '/' :: ts2) cs

/-- Match a compiled glob against a path string (the model of
`GlobMatcher::is_match` on the root-relative path). -/
def globMatch (ts : List Tok) (s : String) : Bool :=
  tmatchF (2 * s.length + (ts.map tokW).sum + 1) ts s.data

/-- Parse the body of a bracket character class (after `[` and an
optional `!`).  Returns the ranges and the rest of the input after the
closing `]`; `none` models a compile error (unclosed class or an
inverted range such as `[z-a]`).  A `]` directly after the opening (or
after `!`) is a literal, `-` at the start or end is a literal, and
`c-d` is a range.  The fuel passed by `parseGAux` exceeds the input
length and every step consumes at least one character, so it never
runs out. -/
def classBody : Nat → List (Char × Char) → Bool → List Char →
    Option (List (Char × Char) × List Char)
  | 0, _, _, _ => none
  | _, _, _, [] => none
  | fuel+1, acc, first, c :: rest =>
    if c = ']' ∧ first = false then some (acc.reverse, rest)
    else
      match rest with
      | '-' :: d :: rest2 =>
        if d = ']' then classBody fuel ((c, c) :: ('-', '-') :: acc) false (d :: rest2)
        else if c.toNat ≤ d.toNat then classBody fuel ((c, d) :: acc) false rest2
        else none
      | _ => classBody fuel ((c, c) :: acc) false rest

/-- Drop a just-emitted literal `/` token from the reversed accumulator
(the model of `globset`'s `pop_token` when `**` follows a separator). -/
def popSlash : List Tok → List Tok
  | Tok.lit c :: rest => if c = '/' then rest else Tok.lit c :: rest
  | acc => acc

/-- Fuel-bounded glob parser accumulating reversed tokens; `prev` is the
previously consumed character (`none` at the very start).  Mirrors
`globset`'s parser with default options: `\\` escapes the next
character (a dangling escape is an error), `?` and `*` are wildcards,
`**` is recursive only at component boundaries (otherwise it is two
ordinary stars), `[...]` is a character class.  The fuel passed by
`parseGlob` exceeds the input length, and every step consumes at least
one character, so it never runs out. -/
def parseGAux : Nat → List Tok → Option Char → List Char → Option (List Tok)
  | 0, _, _, _ => none
  | _+1, acc, _, [] => some acc.reverse
  | fuel+1, acc, _, '\\' :: rest =>
    (match rest with
     | [] => none
     | c :: rest2 => parseGAux fuel (Tok.lit c :: acc) (some c) rest2)
  | fuel+1, acc, _, '?' :: rest => parseGAux fuel (Tok.anyc :: acc) (some '?') rest
  | fuel+1, acc, _, '[' :: rest =>
    (match rest with
     | '!' :: rest2 =>
       match classBody (rest2.length + 1) [] true rest2 with
       | some (rs, rest3) => parseGAux fuel (Tok.cls true rs :: acc) (some ']') rest3
       | none => none
     | _ =>
       match classBody (rest.length + 1) [] true rest with
       | some (rs, rest3) => parseGAux fuel (Tok.cls false rs :: acc) (some ']') rest3
       | none => none)
  | fuel+1, acc, prev, '*' :: rest =>
    (match rest with
     | '*' :: rest2 =>
       if prev = none ∨ prev = some '/' then
         match rest2 with
         | [] =>
           if prev = some '/' then some ((Tok.recSuf :: popSlash acc).reverse)
           else some ((Tok.recPre :: acc).reverse)
         | '/' :: rest3 =>
           if prev = some '/' then parseGAux fuel (Tok.recMid :: popSlash acc) (some '/') rest3
           else parseGAux fuel (Tok.recPre :: acc) (some '/') rest3
         | _ => parseGAux fuel (Tok.star :: Tok.star :: acc) (some '*') rest2
       else parseGAux fuel (Tok.star :: Tok.star :: acc) (some '*') rest2
     | _ => parseGAux fuel (Tok.star :: acc) (some '*') rest)
  | fuel+1, acc, _, c :: rest => parseGAux fuel (Tok.lit c :: acc) (some c) rest

/-- Compile a glob pattern string; `none` models `globset::Glob::new`
returning an error (the `Err` branches of the source). -/
def parseGlob (g : String) : Option (List Tok) :=
  parseGAux (g.length + 1) [] none g.data

/-! ## Filesystem trees -/

/-- A filesystem node: regular file with text content, symbolic link
(recording whether its target is a directory, which is what the
`Path::is_dir` call in the sort comparator observes), a node of another
type (socket, device, ...), or a directory with named children. -/
inductive FsTree where
  | file (content : String)
  | symlink (targetIsDir : Bool)
  | other
  | dir (children : List (String × FsTree))

/-- Result of `Path::is_dir` for an entry: true for directories and for
symlinks whose target is a directory. -/
def entryIsDir : FsTree → Bool
  | .dir _ => true
  | .symlink b => b
  | _ => false

mutual

/-- Height of a tree, used as structurally sufficient fuel for the
walker: a directory at depth `d` needs `d` units of fuel to expand all
of its descendants. -/
def treeDepth : FsTree → Nat
  | .dir cs => treeDepthL cs + 1
  | _ => 0

/-- Height helper over a children list. -/
def treeDepthL : List (String × FsTree) → Nat
  | [] => 0
  | e :: rest => max (treeDepth e.2) (treeDepthL rest)

end

/-- Kernel-reducible lexicographic comparison of character lists by code
point (the model of byte-wise path comparison in Rust's `Ord` for
`Path`, which coincides with code-point order on the paths we model). -/
def chListCmp : List Char → List Char → Ordering
  | [], [] => .eq
  | [], _ :: _ => .lt
  | _ :: _, [] => .gt
  | a :: as, b :: bs =>
    if a.toNat < b.toNat then .lt
    else if b.toNat < a.toNat then .gt
    else chListCmp as bs

/-- Lexicographic comparison of two strings. -/
def strCmp (a b : String) : Ordering := chListCmp a.data b.data

/-- The sibling comparator passed to `sort_by_file_path`
(src/src/lib.rs lines 113-127): two directories or two non-directories
compare by path, and a non-directory sorts before a directory.  Sibling
entries share their parent path, so comparing full paths is comparing
names. -/
def cmpSib (a b : String × FsTree) : Ordering :=
  if entryIsDir a.2 && entryIsDir b.2 then strCmp a.1 b.1
  else if !entryIsDir a.2 && !entryIsDir b.2 then strCmp a.1 b.1
  else if entryIsDir a.2 then .gt else .lt

/-- Non-strict order induced by the sibling comparator. -/
def sibLe (a b : String × FsTree) : Prop := cmpSib a b ≠ Ordering.gt

instance : DecidableRel sibLe := fun a b =>
  inferInstanceAs (Decidable (cmpSib a b ≠ Ordering.gt))

/-- Stable sort of a directory's children by the sibling comparator (the
model of `sort_by_file_path` with the source's comparator; `ignore`
sorts the entries of each directory as they are read). -/
def sortChildren (cs : List (String × FsTree)) : List (String × FsTree) :=
  List.insertionSort sibLe cs

/-- Find a directory's child by name. -/
def lookupChild (cs : List (String × FsTree)) (name : String) : Option FsTree :=
  (cs.find? (fun e => e.1 == name)).map (·.2)

/-- Join root-relative path segments with `/` (the textual form of the
relative `Path` handed to matchers and classification functions). -/
def joinPath (segs : List String) : String := String.intercalate "/" segs

/-! ## Sectioned configuration (model of the gix_config capability) -/

/-- A parsed configuration section: its (normalized) section name and
its key/value pairs, the shape `read_submodule_paths` consumes through
`sections_by_name` and `Section::value`. -/
structure ConfigSection where
  name : String
  entries : List (String × String)
deriving DecidableEq

/-- Value bound to `key` in a section; with several occurrences the last
one wins, as in git configuration files. -/
def sectionValue (s : ConfigSection) (key : String) : Option String :=
  ((s.entries.filter (fun e => e.1 == key)).map (fun e => e.2)).getLast?

/-- Embedding of `read_submodule_paths` (src/src/lib.rs lines 12-26) on
parsed sections: if at least one `submodule` section exists, return
`some` of the `path` values of the `submodule` sections (sections
without a `path` key are skipped by the `filter_map`); with no
`submodule` section at all, return `none`. -/
def readSubmodulePaths (sections : List ConfigSection) : Option (List String) :=
  if sections.any (fun s => s.name == "submodule") then
    some ((sections.filter (fun s => s.name == "submodule")).filterMap
      (fun s => sectionValue s "path"))
  else none

/-- Configuration whitespace. -/
def isCfgWs (c : Char) : Bool := c = ' ' || c = '\t' || c = '\r'

/-- Trim configuration whitespace from both ends of a character list. -/
def chTrim (l : List Char) : List Char :=
  ((l.dropWhile isCfgWs).reverse.dropWhile isCfgWs).reverse

/-- Split a character list at every occurrence of `c`. -/
def splitOnCh (c : Char) : List Char → List (List Char)
  | [] => [[]]
  | x :: xs =>
    let rest := splitOnCh c xs
    if x = c then [] :: rest
    else
      match rest with
      | [] => [[x]]
      | r :: rs => (x :: r) :: rs

/-- Take characters of a section name up to a space, quote or `]`. -/
def sectionNameOf (l : List Char) : List Char :=
  l.takeWhile (fun c => !(c = ' ' || c = '"' || c = ']'))

/-- Parse one `key = value` line body into a pair (split at the first
`=`, both sides trimmed).  `none` models a malformed line. -/
def parseKV (l : List Char) : Option (String × String) :=
  match splitOnCh '=' l with
  | [] => none
  | [_] => none
  | k :: vs =>
    let key := chTrim k
    if key = [] then none
    else some (String.mk key, String.mk (chTrim (String.intercalate "=" (vs.map String.mk)).data))

/-- Modelled from the spec: the Sectioned Config Parser capability of §6
(the gix_config `File::from_str` collaborator, which is outside this
repository).  Lines are split on newlines and trimmed; blank lines and
`#`/`;` comments are skipped; `[name ...]` opens a section whose name is
the word after `[`; `key = value` lines attach to the current section; a
key/value line before any section, or any other line shape, is a parse
error (`none`), which the caller downgrades to "no submodule
information". -/
def parseConfigAux : List ConfigSection → Option ConfigSection → List (List Char) →
    Option (List ConfigSection)
  | acc, cur, [] =>
    some ((match cur with
           | some s => { s with entries := s.entries.reverse } :: acc
           | none => acc).reverse)
  | acc, cur, line :: rest =>
    match chTrim line with
    | [] => parseConfigAux acc cur rest
    | c :: cs2 =>
      if c = '#' ∨ c = ';' then parseConfigAux acc cur rest
      else if c = '[' then
        match (c :: cs2).getLast? with
        | some ']' =>
          let body := (c :: cs2).drop 1 |>.dropLast
          let acc2 := match cur with
            | some s => { s with entries := s.entries.reverse } :: acc
            | none => acc
          parseConfigAux acc2 (some ⟨String.mk (sectionNameOf (chTrim body)), []⟩) rest
        | _ => none
      else
        match cur with
        | none => none
        | some s =>
          match parseKV (c :: cs2) with
          | some kv => parseConfigAux acc (some { s with entries := kv :: s.entries }) rest
          | none => none

/-- Parse a `.gitmodules`-style text into sections (entry point of the
modelled capability). -/
def parseConfig (text : String) : Option (List ConfigSection) :=
  parseConfigAux [] none (splitOnCh '\n' text.data)

/-- Embedding of `get_submodule_paths` (src/src/lib.rs lines 39-46):
read `.gitmodules` directly under the root, parse it, and extract the
submodule paths; every failure (no such file, not a regular file, parse
error) degrades to `none`. -/
def getSubmodulePaths (rootCs : List (String × FsTree)) : Option (List String) :=
  match lookupChild rootCs ".gitmodules" with
  | some (FsTree.file content) =>
    (match parseConfig content with
     | some sections => readSubmodulePaths sections
     | none => none)
  | _ => none

/-- Embedding of the submodule exclusion matcher built in `walk_repo`
(src/src/lib.rs lines 56-66): with a declared path list, each path is
compiled as a glob and failures are skipped, giving a pattern set;
with no list there is no matcher at all. -/
def submoduleGlobOf (rootCs : List (String × FsTree)) : Option (List (List Tok)) :=
  match getSubmodulePaths rootCs with
  | some paths => some (paths.filterMap parseGlob)
  | none => none

/-! ## The repository walker -/

/-- The submodule check of the `filter_entry` closure: with a built
matcher the path must not match it; without one everything passes. -/
def submoduleOk (subGlob : Option (List (List Tok))) (p : String) : Bool :=
  match subGlob with
  | some pats => !(pats.any (fun ts => globMatch ts p))
  | none => true

/-- Embedding of the `filter_entry` closure (src/src/lib.rs lines
75-111), evaluated on each non-root entry's root-relative path and node:
regular files always pass; symlinks never pass; for everything else the
final name component must exist (it does not for the root) and must not
be `.git`, and the relative path must not match the submodule pattern
set; the root itself (empty relative path) is not subject to the
predicate. -/
def filterEntry (subGlob : Option (List (List Tok))) (rel : List String) (t : FsTree) : Bool :=
  match t with
  | .file _ => true
  | .symlink _ => false
  | _ =>
    if rel.getLast? = none then false
    else if rel.getLast? = some ".git" then false
    else submoduleOk subGlob (joinPath rel)

/-- Preorder walk of a children list (model of the sequential
`ignore::Walk` iterator): the children of each directory are sorted by
the sibling comparator, entries failing the filter are neither yielded
nor descended into, surviving entries are yielded (directories
included) and surviving directories are expanded in place.  `fuel`
bounds the descent depth; `walkEntries` passes the tree height, which
is sufficient. -/
def walkList (flt : List String → FsTree → Bool) :
    Nat → List String → List (String × FsTree) → List (List String × FsTree)
  | 0, _, _ => []
  | fuel+1, parent, cs =>
    (sortChildren cs).flatMap (fun e =>
      if flt (parent ++ [e.1]) e.2 then
        (parent ++ [e.1], e.2) ::
          (match e.2 with
           | FsTree.dir cs2 => walkList flt fuel (parent ++ [e.1]) cs2
           | _ => [])
      else [])

/-- The per-entry block of the walk: a surviving entry followed by the
walk of its children when it is a directory. -/
def walkChild (flt : List String → FsTree → Bool) (fuel : Nat) (parent : List String)
    (e : String × FsTree) : List (List String × FsTree) :=
  if flt (parent ++ [e.1]) e.2 then
    (parent ++ [e.1], e.2) ::
      (match e.2 with
       | FsTree.dir cs2 => walkList flt fuel (parent ++ [e.1]) cs2
       | _ => [])
  else []

/-- Children of the repository root (a non-directory root has none). -/
def rootChildren : FsTree → List (String × FsTree)
  | .dir cs => cs
  | _ => []

/-- All entries yielded by the traversal of a repository tree, as
(root-relative segment list, node) pairs.  The root itself is yielded
first with the empty relative path, exactly as the `ignore` walker
yields the root (it is dropped later by the `Some("")` case of
`walk_repo`). -/
def walkEntries (t : FsTree) : List (List String × FsTree) :=
  match t with
  | FsTree.dir cs =>
    ([], t) :: walkList (filterEntry (submoduleGlobOf cs)) (treeDepth t) [] cs
  | _ => [([], t)]

/-- Embedding of `walk_repo` (src/src/lib.rs lines 48-148): traverse,
drop the root (empty relative path), and apply the classification
function to every remaining entry's relative path, collecting the
non-`None` results. -/
def walkRepo (t : FsTree) (f : String → Option α) : List α :=
  (walkEntries t).filterMap (fun e => if e.1 = [] then none else f (joinPath e.1))

/-- The relative path strings of all yielded non-root entries. -/
def visitedPaths (t : FsTree) : List String := walkRepo t some

/-- Embedding of `walk_repo_glob` (src/src/lib.rs lines 160-174): a
failed compilation yields `[]`; otherwise keep each visited path
matching the pattern. -/
def walkRepoGlob (t : FsTree) (glob : String) : List String :=
  match parseGlob glob with
  | none => []
  | some ts => walkRepo t (fun p => if globMatch ts p then some p else none)

/-- Does any pattern of the set match (model of `GlobSet::is_match`). -/
def setMatch (pats : List (List Tok)) (p : String) : Bool :=
  pats.any (fun ts => globMatch ts p)

/-- Embedding of `walk_repo_globs` (src/src/lib.rs lines 187-209):
compile every pattern, skipping failures, and keep each visited path
matching the resulting set (the built set never fails in the model;
an empty set matches nothing). -/
def walkRepoGlobs (t : FsTree) (globs : List String) : List String :=
  let pats := globs.filterMap parseGlob
  walkRepo t (fun p => if setMatch pats p then some p else none)

/-- Embedding of `walk_repo_globs_map` (src/src/lib.rs lines 225-277)
with the hash map represented as an association list: every input key
is initialized to `[]`; each key's pattern list is compiled into a set
(failures skipped); one walk collects, per visited path, the
`(key, path)` pairs of every matching key; the pairs are then
distributed to their keys in walk order. -/
def walkRepoGlobsMap (t : FsTree) (m : List (String × List String)) :
    List (String × List String) :=
  let matchers : List (String × List (List Tok)) :=
    m.map (fun e => (e.1, e.2.filterMap parseGlob))
  let pairs : List (List (String × String)) :=
    walkRepo t (fun p =>
      some (matchers.filterMap (fun km => if setMatch km.2 p then some (km.1, p) else none)))
  matchers.map (fun km =>
    (km.1, pairs.flatten.filterMap (fun kp => if kp.1 = km.1 then some kp.2 else none)))

/-! ## Lookup relation and sibling order -/

/-- Membership of a node in a children forest: `HasEntry cs segs n`
says that following the nonempty segment list `segs` from the children
list `cs`, descending only through directory nodes, reaches the node
`n`. -/
inductive HasEntry : List (String × FsTree) → List String → FsTree → Prop
  | head {cs : List (String × FsTree)} {nm : String} {t : FsTree} :
      (nm, t) ∈ cs → HasEntry cs [nm] t
  | tail {cs : List (String × FsTree)} {nm : String} {cs2 : List (String × FsTree)}
      {segs : List String} {t : FsTree} :
      (nm, FsTree.dir cs2) ∈ cs → HasEntry cs2 segs t → HasEntry cs (nm :: segs) t

/-- The sibling order stated by the specification: a non-directory
before a directory, and lexicographic path order inside each of the two
groups. -/
def sibOrder (a b : String × FsTree) : Prop :=
  (entryIsDir a.2 = false ∧ entryIsDir b.2 = true) ∨
  (entryIsDir a.2 = entryIsDir b.2 ∧ strCmp a.1 b.1 ≠ Ordering.gt)

/-- Swapping the arguments of the character-list comparison swaps the
ordering. -/
theorem chListCmp_swap : ∀ a b : List Char, chListCmp b a = (chListCmp a b).swap := by
  intro a
  induction a with
  | nil => intro b; cases b <;> simp [chListCmp, Ordering.swap]
  | cons x xs ih =>
    intro b
    cases b with
    | nil => simp [chListCmp, Ordering.swap]
    | cons y ys =>
      simp only [chListCmp]
      by_cases h1 : x.toNat < y.toNat
      · have h2 : ¬ y.toNat < x.toNat := by omega
        simp [h1, h2, Ordering.swap]
      · by_cases h2 : y.toNat < x.toNat
        · simp [h1, h2, Ordering.swap]
        · simp [h1, h2, ih]

/-- Transitivity of the non-strict lexicographic order on character
lists. -/
theorem chListCmp_le_trans :
    ∀ a b c : List Char, chListCmp a b ≠ Ordering.gt → chListCmp b c ≠ Ordering.gt →
      chListCmp a c ≠ Ordering.gt := by
  intro a
  induction a with
  | nil => intro b c _ _; cases c <;> simp [chListCmp]
  | cons x xs ih =>
    intro b c h1 h2
    cases b with
    | nil => simp [chListCmp] at h1
    | cons y ys =>
      cases c with
      | nil => simp [chListCmp] at h2
      | cons z zs =>
        simp only [chListCmp] at h1 h2 ⊢
        rcases Nat.lt_trichotomy x.toNat y.toNat with hxy | hxy | hxy
        · rcases Nat.lt_trichotomy y.toNat z.toNat with hyz | hyz | hyz
          · have hxz : x.toNat < z.toNat := by omega
            simp [hxz]
          · have hxz : x.toNat < z.toNat := by omega
            simp [hxz]
          · have e1 : ¬ y.toNat < z.toNat := by omega
            simp [e1, hyz] at h2
        · rcases Nat.lt_trichotomy y.toNat z.toNat with hyz | hyz | hyz
          · have hxz : x.toNat < z.toNat := by omega
            simp [hxz]
          · have e1 : ¬ x.toNat < y.toNat := by omega
            have e2 : ¬ y.toNat < x.toNat := by omega
            have e3 : ¬ y.toNat < z.toNat := by omega
            have e4 : ¬ z.toNat < y.toNat := by omega
            have e5 : ¬ x.toNat < z.toNat := by omega
            have e6 : ¬ z.toNat < x.toNat := by omega
            simp [e1, e2] at h1
            simp [e3, e4] at h2
            simp [e5, e6]
            exact ih ys zs h1 h2
          · have e1 : ¬ y.toNat < z.toNat := by omega
            simp [e1, hyz] at h2
        · have e1 : ¬ x.toNat < y.toNat := by omega
          simp [e1, hxy] at h1

/-- Totality of the sibling order. -/
instance : IsTotal (String × FsTree) sibLe where
  total a b := by
    unfold sibLe cmpSib strCmp
    cases hda : entryIsDir a.2 <;> cases hdb : entryIsDir b.2 <;> simp
    all_goals
      rcases h : chListCmp a.1.data b.1.data with _ | _ | _ <;>
        simp_all [chListCmp_swap a.1.data b.1.data, Ordering.swap]

/-- Transitivity of the sibling order. -/
instance : IsTrans (String × FsTree) sibLe where
  trans a b c h1 h2 := by
    unfold sibLe cmpSib strCmp at *
    cases hda : entryIsDir a.2 <;> cases hdb : entryIsDir b.2 <;>
      cases hdc : entryIsDir c.2 <;> simp_all
    all_goals exact chListCmp_le_trans _ _ _ h1 h2

/-- Sorting a children list yields a permutation of it. -/
theorem sortChildren_perm (cs : List (String × FsTree)) : (sortChildren cs).Perm cs :=
  List.perm_insertionSort sibLe cs

/-- Sorted children are pairwise ordered by the sibling comparator. -/
theorem sortChildren_pairwise (cs : List (String × FsTree)) :
    (sortChildren cs).Pairwise sibLe :=
  List.sorted_insertionSort sibLe cs

/-- The comparator order coincides with the order stated by the
specification: non-directories first, then lexicographic inside each
group. -/
theorem sibLe_iff_sibOrder (a b : String × FsTree) : sibLe a b ↔ sibOrder a b := by
  unfold sibLe sibOrder cmpSib
  cases hda : entryIsDir a.2 <;> cases hdb : entryIsDir b.2 <;> simp

/-- One step of the walk: with positive fuel, the walk of a children
list is the concatenation of the per-entry blocks over the sorted
children. -/
theorem walkList_succ (flt : List String → FsTree → Bool) (fuel : Nat)
    (parent : List String) (cs : List (String × FsTree)) :
    walkList flt (fuel + 1) parent cs = (sortChildren cs).flatMap (walkChild flt fuel parent) :=
  rfl

/-- Elimination for a nonempty list-prefix of a cons. -/
theorem prefix_cons_elim {α : Type _} {q : List α} {a : α} {l : List α}
    (h : q <+: a :: l) (hne : q ≠ []) : ∃ q2, q = a :: q2 ∧ q2 <+: l := by
  cases q with
  | nil => exact absurd rfl hne
  | cons b q2 =>
    obtain ⟨hb, hq⟩ := List.cons_prefix_cons.mp h
    exact ⟨q2, by rw [hb], hq⟩

/-- Soundness of the walk: every yielded entry extends the parent path
by a nonempty segment list that reaches the node in the (unsorted)
children forest, the entry passed the filter, and every proper
intermediate point of the path is a directory node of the forest that
also passed the filter. -/
theorem walkList_sound {flt : List String → FsTree → Bool} :
    ∀ (fuel : Nat) (parent : List String) (cs : List (String × FsTree))
      (p : List String) (n : FsTree), (p, n) ∈ walkList flt fuel parent cs →
      ∃ segs, segs ≠ [] ∧ p = parent ++ segs ∧ HasEntry cs segs n ∧ flt p n = true ∧
        ∀ q, q <+: segs → q ≠ [] → q ≠ segs →
          ∃ cs2, HasEntry cs q (FsTree.dir cs2) ∧
            flt (parent ++ q) (FsTree.dir cs2) = true := by
  intro fuel
  induction fuel with
  | zero => intro parent cs p n h; simp [walkList] at h
  | succ fuel ih =>
    intro parent cs p n h
    rw [walkList_succ, List.mem_flatMap] at h
    obtain ⟨e, he, hmem⟩ := h
    obtain ⟨nm, t⟩ := e
    have hecs : (nm, t) ∈ cs := (sortChildren_perm cs).mem_iff.mp he
    unfold walkChild at hmem
    by_cases hf : flt (parent ++ [nm]) t
    · rw [if_pos hf] at hmem
      rcases List.mem_cons.mp hmem with heq | hdesc
      · obtain ⟨hp, hn⟩ := Prod.mk.injEq .. ▸ heq
        refine ⟨[nm], by simp, by simp [hp], ?_, ?_, ?_⟩
        · exact hn ▸ HasEntry.head hecs
        · rw [hp, hn]; exact hf
        · intro q hq hqne hqs
          obtain ⟨q2, rfl, hq2⟩ := prefix_cons_elim hq hqne
          have : q2 = [] := List.prefix_nil.mp hq2
          exact absurd (by rw [this]) hqs
      · cases t with
        | dir cs2 =>
          obtain ⟨segs2, hne2, hp2, hhe2, hflt2, hpre2⟩ := ih _ _ _ _ hdesc
          refine ⟨nm :: segs2, by simp, ?_, HasEntry.tail hecs hhe2, ?_, ?_⟩
          · rw [hp2, List.append_assoc]; rfl
          · exact hflt2
          · intro q hq hqne hqs
            obtain ⟨q2, rfl, hq2⟩ := prefix_cons_elim hq hqne
            by_cases hq2e : q2 = []
            · subst hq2e
              exact ⟨cs2, HasEntry.head hecs, by simpa using hf⟩
            · have hq2s : q2 ≠ segs2 := fun hcontra => hqs (by rw [hcontra])
              obtain ⟨cs3, hh3, hf3⟩ := hpre2 q2 hq2 hq2e hq2s
              refine ⟨cs3, HasEntry.tail hecs hh3, ?_⟩
              rw [show parent ++ nm :: q2 = (parent ++ [nm]) ++ q2 by simp]
              exact hf3
        | file content => simp at hdesc
        | symlink b => simp at hdesc
        | other => simp at hdesc
    · rw [if_neg hf] at hmem
      simp at hmem

/-- Every collected result of `walkRepo` comes from a non-root entry of
the walk, through the classification function. -/
theorem mem_walkRepo {α : Type _} {t : FsTree} {f : String → Option α} {r : α}
    (h : r ∈ walkRepo t f) :
    ∃ p n, (p, n) ∈ walkList (filterEntry (submoduleGlobOf (rootChildren t))) (treeDepth t)
        [] (rootChildren t) ∧ p ≠ [] ∧ f (joinPath p) = some r := by
  unfold walkRepo walkEntries at h
  cases t with
  | dir cs =>
    rw [List.mem_filterMap] at h
    obtain ⟨e, he, hfe⟩ := h
    rcases List.mem_cons.mp he with rfl | he2
    · simp at hfe
    · by_cases he1 : e.1 = []
      · rw [if_pos he1] at hfe; simp at hfe
      · rw [if_neg he1] at hfe
        refine ⟨e.1, e.2, ?_, he1, hfe⟩
        simpa [rootChildren] using he2
  | file content => simp at h
  | symlink b => simp at h
  | other => simp at h

/-- Pulling a classification function out of the guarded `filterMap` of
`walkRepo`. -/
theorem filterMap_guard_comp {α : Type _} (l : List (List String × FsTree))
    (f : String → Option α) :
    l.filterMap (fun e => if e.1 = [] then none else f (joinPath e.1)) =
      (l.filterMap (fun e => if e.1 = [] then none else some (joinPath e.1))).filterMap f := by
  induction l with
  | nil => rfl
  | cons e rest ih =>
    by_cases he : e.1 = []
    · simp [List.filterMap_cons, he, ih]
    · cases hf : f (joinPath e.1) <;> simp [List.filterMap_cons, he, hf, ih]

/-- The walk classifies exactly the visited paths: `walk_repo` with any
classification function equals the classification of `visitedPaths`. -/
theorem walkRepo_eq_filterMap {α : Type _} (t : FsTree) (f : String → Option α) :
    walkRepo t f = (visitedPaths t).filterMap f := by
  unfold visitedPaths walkRepo
  rw [filterMap_guard_comp]

/-- A `filterMap` with an if-guard returning the element itself is a
`filter`. -/
theorem filterMap_if_eq_filter (P : String → Bool) (l : List String) :
    (l.filterMap fun p => if P p then some p else none) = l.filter P := by
  induction l with
  | nil => rfl
  | cons a rest ih => by_cases h : P a <;> simp [List.filterMap_cons, List.filter_cons, h, ih]

/-- A `filterMap` that always returns `some` is a `map`. -/
theorem filterMap_some_eq_map {α β : Type _} (F : α → β) (l : List α) :
    (l.filterMap fun p => some (F p)) = l.map F := by
  induction l <;> simp_all [List.filterMap_cons]

/-- The multi-glob entry point filters the visited paths by the set of
successfully compiled patterns. -/
theorem walkRepoGlobs_eq (t : FsTree) (globs : List String) :
    walkRepoGlobs t globs = (visitedPaths t).filter (setMatch (globs.filterMap parseGlob)) := by
  unfold walkRepoGlobs
  rw [walkRepo_eq_filterMap, filterMap_if_eq_filter]

/-- The single-glob entry point, on a pattern that compiles, filters the
visited paths by that pattern. -/
theorem walkRepoGlob_eq (t : FsTree) (glob : String) (ts : List Tok)
    (h : parseGlob glob = some ts) :
    walkRepoGlob t glob = (visitedPaths t).filter (fun p => globMatch ts p) := by
  simp only [walkRepoGlob, h]
  rw [walkRepo_eq_filterMap, filterMap_if_eq_filter]

/-- Soundness of `visitedPaths`: every visited path names a real entry
of the tree, reached through directories, where the entry and all its
ancestors passed the entry filter. -/
theorem visitedPaths_sound {t : FsTree} {p : String} (h : p ∈ visitedPaths t) :
    ∃ segs n, p = joinPath segs ∧ segs ≠ [] ∧
      HasEntry (rootChildren t) segs n ∧
      filterEntry (submoduleGlobOf (rootChildren t)) segs n = true ∧
      ∀ q, q <+: segs → q ≠ [] → q ≠ segs →
        ∃ cs2, HasEntry (rootChildren t) q (FsTree.dir cs2) ∧
          filterEntry (submoduleGlobOf (rootChildren t)) q (FsTree.dir cs2) = true := by
  obtain ⟨pp, n, hw, hne, hsome⟩ := mem_walkRepo h
  obtain ⟨segs, hsne, hps, hhe, hflt, hpre⟩ := walkList_sound _ _ _ _ _ hw
  rw [List.nil_append] at hps
  subst hps
  refine ⟨pp, n, by injection hsome with h2; exact h2.symm, hsne, hhe, hflt, ?_⟩
  intro q hq hqne hqs
  obtain ⟨cs2, hh2, hf2⟩ := hpre q hq hqne hqs
  rw [List.nil_append] at hf2
  exact ⟨cs2, hh2, hf2⟩

/-- A filter-passing entry is never a symlink. -/
theorem filterEntry_ne_symlink {g : Option (List (List Tok))} {rel : List String} {t : FsTree}
    (h : filterEntry g rel t = true) : ∀ b, t ≠ FsTree.symlink b := by
  intro b hb
  subst hb
  simp [filterEntry] at h

/-- A filter-passing directory is not named `.git` and does not match
the submodule pattern set. -/
theorem filterEntry_dir_props {g : Option (List (List Tok))} {rel : List String}
    {cs2 : List (String × FsTree)} (h : filterEntry g rel (FsTree.dir cs2) = true) :
    rel.getLast? ≠ some ".git" ∧
      ∀ pats, g = some pats → setMatch pats (joinPath rel) = false := by
  have h2 : (if rel.getLast? = none then false
      else if rel.getLast? = some ".git" then false
      else submoduleOk g (joinPath rel)) = true := h
  by_cases hn : rel.getLast? = none
  · rw [if_pos hn] at h2; exact absurd h2 (by simp)
  · rw [if_neg hn] at h2
    by_cases hg : rel.getLast? = some ".git"
    · rw [if_pos hg] at h2; exact absurd h2 (by simp)
    · rw [if_neg hg] at h2
      refine ⟨hg, ?_⟩
      intro pats hgp
      rw [hgp] at h2
      simpa [submoduleOk, setMatch] using h2

/-- Does the submodule matcher of a tree hit a given relative path. -/
def submatch (t : FsTree) (p : String) : Bool :=
  match submoduleGlobOf (rootChildren t) with
  | some pats => setMatch pats p
  | none => false

/-- Is the named child of a children list a directory entry. -/
def childIsDir (cs : List (String × FsTree)) (name : String) : Bool :=
  match lookupChild cs name with
  | some (FsTree.dir _) => true
  | _ => false

/-- Every path returned by the single-glob entry point was visited. -/
theorem mem_walkRepoGlob_visited {t : FsTree} {pat p : String}
    (h : p ∈ walkRepoGlob t pat) : p ∈ visitedPaths t := by
  cases hg : parseGlob pat with
  | none => simp only [walkRepoGlob, hg] at h; simp at h
  | some ts =>
    rw [walkRepoGlob_eq t pat ts hg] at h
    exact (List.mem_filter.mp h).1

/-- Scenario tree of the specification's §8: `a.txt`, `b/b.txt`,
`.git/HEAD`, no `.gitmodules`. -/
def tcScenario : FsTree :=
  FsTree.dir [("a.txt", FsTree.file ""), ("b", FsTree.dir [("b.txt", FsTree.file "")]),
    (".git", FsTree.dir [("HEAD", FsTree.file "")])]

/-- A tree whose root has a directory `b` holding `b/x.txt`. -/
def tcDirMatch : FsTree := FsTree.dir [("b", FsTree.dir [("x.txt", FsTree.file "")])]

/-- A tree whose root holds a regular file named `.git` (as in a git
worktree checkout). -/
def tcGitFile : FsTree := FsTree.dir [(".git", FsTree.file "x")]

/-- A tree with a `.gitmodules` declaring `vendor/lib` as a submodule,
a file inside that submodule, and a sibling file outside it. -/
def tcSubmod : FsTree :=
  FsTree.dir [(".gitmodules", FsTree.file "[submodule \"v\"]\n\tpath = vendor/lib\n"),
    ("vendor", FsTree.dir [("lib", FsTree.dir [("readme.md", FsTree.file "")]),
      ("app.md", FsTree.file "")])]

/-- A tree with a regular file and a symlink pointing at a directory. -/
def tcSymlink : FsTree :=
  FsTree.dir [("a.txt", FsTree.file ""), ("ln", FsTree.symlink true)]

/-! ## Claim C1 -/

/-- Claim C1, counterexample: on a tree whose root holds the directory
`b`, the glob `b` returns the path `b`, which names a directory entry —
so directory entries do reach the classification function and do appear
in result lists. -/
theorem c1_counterexample :
    walkRepoGlob tcDirMatch "b" = ["b"] ∧
      childIsDir (rootChildren tcDirMatch) "b" = true := by
  constructor <;> decide

/-- Claim C1 (amended): every result collected by `walk_repo` comes
from applying the classification function to the relative path of a
real entry of the tree that passed the entry filter; such an entry is a
regular file or any filter-surviving directory or other-typed entry
(directories that survive filtering are classified too, and appear in
results when the classification function accepts their path). -/
theorem c1_claim {α : Type _} (t : FsTree) (f : String → Option α) (r : α)
    (h : r ∈ walkRepo t f) :
    ∃ segs n, segs ≠ [] ∧ f (joinPath segs) = some r ∧
      HasEntry (rootChildren t) segs n ∧
      filterEntry (submoduleGlobOf (rootChildren t)) segs n = true := by
  obtain ⟨p, n, hw, hne, hsome⟩ := mem_walkRepo h
  obtain ⟨segs, hsne, hps, hhe, hflt, _⟩ := walkList_sound _ _ _ _ _ hw
  rw [List.nil_append] at hps
  subst hps
  exact ⟨p, n, hsne, hsome, hhe, hflt⟩

/-- Claim C1, witness: the amended theorem applied to the
counterexample tree with the identity classification. -/
theorem c1_witness :
    ∃ segs n, segs ≠ [] ∧ some (joinPath segs) = some "b" ∧
      HasEntry (rootChildren tcDirMatch) segs n ∧
      filterEntry (submoduleGlobOf (rootChildren tcDirMatch)) segs n = true :=
  c1_claim tcDirMatch some "b" (by decide)

/-! ## Claim C2 -/

/-- Claim C2, counterexample: on the §8 scenario tree the result of
glob `*.txt` is not `["a.txt"]`. -/
theorem c2_counterexample : walkRepoGlob tcScenario "*.txt" ≠ ["a.txt"] := by decide

/-- Claim C2 (amended): on the scenario tree (`a.txt`, `b/b.txt`,
`.git/HEAD`, no submodules), glob `*.txt` returns
`["a.txt", "b/b.txt"]`: with the pattern compiler's default options a
`*` also matches path separators, so `*.txt` is effectively recursive;
`.git/HEAD` is still excluded. -/
theorem c2_claim : walkRepoGlob tcScenario "*.txt" = ["a.txt", "b/b.txt"] := by decide

/-! ## Claim C3 -/

/-- Claim C3, counterexample: a regular file named `.git` at the root
is returned (the `.git` test in the entry filter is only reached for
non-file entries), so a returned path can have `.git` as its root-level
segment. -/
theorem c3_counterexample :
    walkRepoGlob tcGitFile "*" = [".git"] ∧
      childIsDir (rootChildren tcGitFile) ".git" = false := by
  constructor <;> decide

/-- Claim C3 (amended): no returned path lies strictly below a
directory named `.git` or below a directory matching the declared
submodule matcher — every proper ancestor of a returned path is a
directory whose name is not `.git` and which the submodule matcher does
not hit — and a returned path that itself names a directory entry also
is not named `.git` and is not hit by the submodule matcher.  (A
regular file named `.git`, or located at a declared submodule path, can
still be returned, as the counterexample shows.) -/
theorem c3_claim (t : FsTree) (pat p : String) (h : p ∈ walkRepoGlob t pat) :
    ∃ segs n, p = joinPath segs ∧ HasEntry (rootChildren t) segs n ∧
      (∀ q, q <+: segs → q ≠ [] → q ≠ segs →
        q.getLast? ≠ some ".git" ∧ submatch t (joinPath q) = false) ∧
      ∀ cs2, n = FsTree.dir cs2 →
        segs.getLast? ≠ some ".git" ∧ submatch t (joinPath segs) = false := by
  obtain ⟨segs, n, hp, hne, hhe, hflt, hpre⟩ := visitedPaths_sound (mem_walkRepoGlob_visited h)
  refine ⟨segs, n, hp, hhe, ?_, ?_⟩
  · intro q hq hqne hqs
    obtain ⟨cs2, hh2, hf2⟩ := hpre q hq hqne hqs
    obtain ⟨hgit, hsub⟩ := filterEntry_dir_props hf2
    refine ⟨hgit, ?_⟩
    unfold submatch
    cases hsg : submoduleGlobOf (rootChildren t) with
    | none => rfl
    | some pats => exact hsub pats hsg
  · intro cs2 hn
    subst hn
    obtain ⟨hgit, hsub⟩ := filterEntry_dir_props hflt
    refine ⟨hgit, ?_⟩
    unfold submatch
    cases hsg : submoduleGlobOf (rootChildren t) with
    | none => rfl
    | some pats => exact hsub pats hsg

/-- Claim C3, witness: the amended theorem applied to the submodule
tree, where `vendor/app.md` is returned by `**/*.md` (while
`vendor/lib/readme.md`, inside the declared submodule, is pruned). -/
theorem c3_witness :
    ∃ segs n, "vendor/app.md" = joinPath segs ∧ HasEntry (rootChildren tcSubmod) segs n ∧
      (∀ q, q <+: segs → q ≠ [] → q ≠ segs →
        q.getLast? ≠ some ".git" ∧ submatch tcSubmod (joinPath q) = false) ∧
      ∀ cs2, n = FsTree.dir cs2 →
        segs.getLast? ≠ some ".git" ∧ submatch tcSubmod (joinPath segs) = false :=
  c3_claim tcSubmod "**/*.md" "vendor/app.md" (by decide)

/-! ## Claim C4 -/

/-- Claim C4: symbolic links are never followed — every returned path
reaches its node purely through directory entries of the tree (so it is
not reachable only through a symlink, and symlinked directories are
never traversed), and the returned node itself is never a symlink. -/
theorem c4_claim (t : FsTree) (pat p : String) (h : p ∈ walkRepoGlob t pat) :
    ∃ segs n, p = joinPath segs ∧ HasEntry (rootChildren t) segs n ∧
      (∀ b, n ≠ FsTree.symlink b) ∧
      ∀ q, q <+: segs → q ≠ [] → q ≠ segs →
        ∃ cs2, HasEntry (rootChildren t) q (FsTree.dir cs2) := by
  obtain ⟨segs, n, hp, hne, hhe, hflt, hpre⟩ := visitedPaths_sound (mem_walkRepoGlob_visited h)
  refine ⟨segs, n, hp, hhe, filterEntry_ne_symlink hflt, ?_⟩
  intro q hq hqne hqs
  obtain ⟨cs2, hh2, _⟩ := hpre q hq hqne hqs
  exact ⟨cs2, hh2⟩

/-- Claim C4, witness: the theorem applied to the tree holding a
symlink, where `a.txt` is returned (and the symlink is not). -/
theorem c4_witness :
    ∃ segs n, "a.txt" = joinPath segs ∧ HasEntry (rootChildren tcSymlink) segs n ∧
      (∀ b, n ≠ FsTree.symlink b) ∧
      ∀ q, q <+: segs → q ≠ [] → q ≠ segs →
        ∃ cs2, HasEntry (rootChildren tcSymlink) q (FsTree.dir cs2) :=
  c4_claim tcSymlink "*" "a.txt" (by decide)

/-! ## Claim C5 -/

/-- Claim C5: within any directory the walk expands the sibling blocks
in an order that is a permutation of the children in which every
non-directory entry precedes every directory entry and each of the two
groups is in lexicographic path order; the emitted sequence is the
concatenation of the per-entry blocks in exactly that order. -/
theorem c5_claim (flt : List String → FsTree → Bool) (fuel : Nat) (parent : List String)
    (cs : List (String × FsTree)) :
    ∃ scs : List (String × FsTree), scs.Perm cs ∧ scs.Pairwise sibOrder ∧
      walkList flt (fuel + 1) parent cs = scs.flatMap (walkChild flt fuel parent) :=
  ⟨sortChildren cs, sortChildren_perm cs,
    (sortChildren_pairwise cs).imp (fun h => (sibLe_iff_sibOrder _ _).mp h),
    walkList_succ flt fuel parent cs⟩

/-! ## Claim C7 -/

/-- Claim C7: a glob string that fails to compile makes
`walk_repo_glob` return the empty list for every repository tree; no
error is raised or propagated (the function is total and simply takes
the empty-result branch). -/
theorem c7_claim (t : FsTree) (g : String) (h : parseGlob g = none) :
    walkRepoGlob t g = [] := by
  simp only [walkRepoGlob, h]

/-- Claim C7, witness: the unclosed character class `[` fails to
compile and yields the empty result on the scenario tree. -/
theorem c7_witness : parseGlob "[" = none ∧ walkRepoGlob tcScenario "[" = [] :=
  ⟨by decide, c7_claim tcScenario "[" (by decide)⟩

/-! ## Claim C6 -/

/-- Claim C6: the submodule configuration reader returns `some` of the
`path` values of the `submodule` sections whenever at least one
`submodule` section exists (sections without a `path` key are silently
skipped by the `filterMap`), and returns `none` whenever the parsed
configuration has no `submodule` section at all. -/
theorem c6_claim (sections : List ConfigSection) :
    ((∃ s ∈ sections, s.name = "submodule") →
      readSubmodulePaths sections =
        some ((sections.filter (fun s => s.name == "submodule")).filterMap
          (fun s => sectionValue s "path"))) ∧
    ((∀ s ∈ sections, s.name ≠ "submodule") → readSubmodulePaths sections = none) := by
  constructor
  · rintro ⟨s, hs, hname⟩
    unfold readSubmodulePaths
    rw [if_pos]
    exact List.any_eq_true.mpr ⟨s, hs, by simp [hname]⟩
  · intro hall
    unfold readSubmodulePaths
    rw [if_neg]
    simp only [List.any_eq_true, not_exists]
    rintro s ⟨hs, hname⟩
    exact hall s hs (by simpa using hname)

/-- Configuration sections of the source's own
`test_read_submodule_paths` fixture. -/
def tcSections : List ConfigSection :=
  [⟨"submodule", [("path", "foo/bar/baz"),
    ("url", "https://github.com/zharinov/good-enough-parser")]⟩]

/-- Claim C6, witness: one `submodule` section with path `foo/bar/baz`
yields `some ["foo/bar/baz"]`, and a configuration without `submodule`
sections yields `none`. -/
theorem c6_witness :
    readSubmodulePaths tcSections = some ["foo/bar/baz"] ∧
      readSubmodulePaths [⟨"core", [("bare", "false")]⟩] = none :=
  ⟨((c6_claim tcSections).1 (by decide)).trans (by decide),
   (c6_claim [⟨"core", [("bare", "false")]⟩]).2 (by decide)⟩

/-! ## Claim C8 -/

/-- Claim C8: in `walk_repo_globs` a pattern that fails to compile is
skipped without affecting the others — a path is returned exactly when
it was visited and matches at least one successfully compiled pattern
of the list (OR semantics) — and when no pattern compiles the result is
empty. -/
theorem c8_claim (t : FsTree) (globs : List String) :
    (∀ p, p ∈ walkRepoGlobs t globs ↔
      p ∈ visitedPaths t ∧
        ∃ g ∈ globs, ∃ ts, parseGlob g = some ts ∧ globMatch ts p = true) ∧
    (globs.filterMap parseGlob = [] → walkRepoGlobs t globs = []) := by
  constructor
  · intro p
    rw [walkRepoGlobs_eq, List.mem_filter]
    constructor
    · rintro ⟨hv, hm⟩
      refine ⟨hv, ?_⟩
      obtain ⟨ts, hts, hmatch⟩ := List.any_eq_true.mp hm
      obtain ⟨g, hg, hpg⟩ := List.mem_filterMap.mp hts
      exact ⟨g, hg, ts, hpg, hmatch⟩
    · rintro ⟨hv, g, hg, ts, hpg, hm⟩
      exact ⟨hv, List.any_eq_true.mpr ⟨ts, List.mem_filterMap.mpr ⟨g, hg, hpg⟩, hm⟩⟩
  · intro hz
    rw [walkRepoGlobs_eq, hz]
    simp [setMatch]

/-- Claim C8, witness: with the malformed pattern `[` alongside
`*.txt`, the valid pattern still matches (`a.txt` is returned), and
with only malformed patterns the result is empty. -/
theorem c8_witness :
    "a.txt" ∈ walkRepoGlobs tcScenario ["[", "*.txt"] ∧
      walkRepoGlobs tcScenario ["["] = [] :=
  ⟨((c8_claim tcScenario ["[", "*.txt"]).1 "a.txt").mpr
      ⟨by decide, "*.txt", by decide,
        [Tok.star, Tok.lit '.', Tok.lit 't', Tok.lit 'x', Tok.lit 't'], by decide, by decide⟩,
   (c8_claim tcScenario ["["]).2 (by decide)⟩

/-! ## Claims C9 and C10 -/

/-- With keys unique, a key determines its pattern list. -/
theorem nodup_key_eq {α β : Type _} {m : List (α × β)} (hk : (m.map Prod.fst).Nodup)
    {k : α} {a b : β} (ha : (k, a) ∈ m) (hb : (k, b) ∈ m) : a = b := by
  induction m with
  | nil => simp at ha
  | cons e rest ih =>
    rw [List.map_cons, List.nodup_cons] at hk
    rcases List.mem_cons.mp ha with ha1 | ha2 <;> rcases List.mem_cons.mp hb with hb1 | hb2
    · rw [← ha1] at hb1; injection hb1 with _ h2; exact h2.symm
    · exfalso
      apply hk.1
      rw [← ha1]
      exact List.mem_map.mpr ⟨(k, b), hb2, rfl⟩
    · exfalso
      apply hk.1
      rw [← hb1]
      exact List.mem_map.mpr ⟨(k, a), ha2, rfl⟩
    · exact ih hk.2 ha2 hb2

/-- The collected pairs of the mapping walk, flattened. -/
def mapPairs (t : FsTree) (matchers : List (String × List (List Tok))) :
    List (String × String) :=
  (walkRepo t (fun p =>
    some (matchers.filterMap (fun km =>
      if setMatch km.2 p then some (km.1, p) else none)))).flatten

/-- The mapping entry point, written through `mapPairs`. -/
theorem walkRepoGlobsMap_eq (t : FsTree) (m : List (String × List String)) :
    walkRepoGlobsMap t m =
      (m.map (fun e => (e.1, e.2.filterMap parseGlob))).map (fun km =>
        (km.1, (mapPairs t (m.map (fun e => (e.1, e.2.filterMap parseGlob)))).filterMap
          (fun kp => if kp.1 = km.1 then some kp.2 else none))) :=
  rfl

/-- Membership in the flattened pair list: a pair `(k, p)` occurs
exactly when `p` was visited and some matcher entry with key `k`
matches `p`. -/
theorem mem_mapPairs {t : FsTree} {matchers : List (String × List (List Tok))}
    {k p : String} :
    (k, p) ∈ mapPairs t matchers ↔
      p ∈ visitedPaths t ∧ ∃ pats, (k, pats) ∈ matchers ∧ setMatch pats p = true := by
  unfold mapPairs
  rw [walkRepo_eq_filterMap, filterMap_some_eq_map, ← List.flatMap_def, List.mem_flatMap]
  constructor
  · rintro ⟨q, hq, hkp⟩
    obtain ⟨km, hkm, hite⟩ := List.mem_filterMap.mp hkp
    by_cases hs : setMatch km.2 q
    · rw [if_pos hs] at hite
      injection hite with h1
      obtain ⟨hk1, hk2⟩ := Prod.mk.injEq .. ▸ h1
      refine ⟨hk2 ▸ hq, km.2, ?_, by rw [← hk2]; exact hs⟩
      rw [← hk1]
      exact (Prod.mk.eta ▸ hkm : (km.1, km.2) ∈ matchers)
    · rw [if_neg hs] at hite
      exact absurd hite (by simp)
  · rintro ⟨hv, pats, hkm, hs⟩
    exact ⟨p, hv, List.mem_filterMap.mpr ⟨(k, pats), hkm, by rw [if_pos hs]⟩⟩

/-- Claim C9: the output mapping of `walk_repo_globs_map` has exactly
the keys of the input mapping (in particular every key appears), and a
key none of whose compiled patterns matches any visited path — for
instance a key none of whose patterns compiled at all — is bound to the
empty list. -/
theorem c9_claim (t : FsTree) (m : List (String × List String))
    (hk : (m.map Prod.fst).Nodup) :
    (walkRepoGlobsMap t m).map Prod.fst = m.map Prod.fst ∧
    ∀ k globs, (k, globs) ∈ m →
      (∀ p ∈ visitedPaths t, setMatch (globs.filterMap parseGlob) p = false) →
      (k, []) ∈ walkRepoGlobsMap t m := by
  constructor
  · rw [walkRepoGlobsMap_eq]
    simp [List.map_map, Function.comp]
  · intro k globs hm hnone
    rw [walkRepoGlobsMap_eq]
    have hmem : (k, globs.filterMap parseGlob) ∈
        m.map (fun e => (e.1, e.2.filterMap parseGlob)) :=
      List.mem_map.mpr ⟨(k, globs), hm, rfl⟩
    have hcoll :
        (mapPairs t (m.map (fun e => (e.1, e.2.filterMap parseGlob)))).filterMap
          (fun kp => if kp.1 = k then some kp.2 else none) = [] := by
      rw [List.filterMap_eq_nil_iff]
      rintro ⟨k2, p⟩ hkp
      by_cases hk2 : k2 = k
      · exfalso
        subst hk2
        obtain ⟨hv, pats, hpm, hs⟩ := mem_mapPairs.mp hkp
        obtain ⟨e, he, heq⟩ := List.mem_map.mp hpm
        injection heq with h1 h2
        have he2 : e.2.filterMap parseGlob = globs.filterMap parseGlob := by
          have hkey : (k2, e.2) ∈ m := by
            rw [← h1]
            exact Prod.mk.eta ▸ he
          rw [nodup_key_eq hk hkey hm]
        rw [← h2, he2, hnone p hv] at hs
        exact absurd hs (by simp)
      · rw [if_neg hk2]
    exact List.mem_map.mpr ⟨(k, globs.filterMap parseGlob), hmem, by simp [hcoll]⟩

/-- Claim C9, witness: the key `bad`, whose only pattern `[` fails to
compile, still appears in the output, bound to the empty list; the
output keys are exactly the input keys. -/
theorem c9_witness :
    ("bad", ([] : List String)) ∈
        walkRepoGlobsMap tcScenario [("txt", ["*.txt"]), ("bad", ["["])] ∧
      (walkRepoGlobsMap tcScenario [("txt", ["*.txt"]), ("bad", ["["])]).map Prod.fst =
        ["txt", "bad"] :=
  ⟨(c9_claim tcScenario [("txt", ["*.txt"]), ("bad", ["["])] (by decide)).2 "bad" ["["]
      (by decide) (by decide),
   ((c9_claim tcScenario [("txt", ["*.txt"]), ("bad", ["["])] (by decide)).1).trans
      (by decide)⟩

/-- Claim C10: in `walk_repo_globs_map` a visited path matching a key's
compiled pattern set is recorded under that key — for every such key,
so a path matching several keys' sets is recorded under each of them
(every-matching-key semantics, not first-match-wins). -/
theorem c10_claim (t : FsTree) (m : List (String × List String)) (k : String)
    (globs : List String) (p : String) (hm : (k, globs) ∈ m) (hp : p ∈ visitedPaths t)
    (hmatch : setMatch (globs.filterMap parseGlob) p = true) :
    ∃ l, (k, l) ∈ walkRepoGlobsMap t m ∧ p ∈ l := by
  rw [walkRepoGlobsMap_eq]
  have hmem : (k, globs.filterMap parseGlob) ∈
      m.map (fun e => (e.1, e.2.filterMap parseGlob)) :=
    List.mem_map.mpr ⟨(k, globs), hm, rfl⟩
  refine ⟨(mapPairs t (m.map (fun e => (e.1, e.2.filterMap parseGlob)))).filterMap
    (fun kp => if kp.1 = k then some kp.2 else none),
    List.mem_map.mpr ⟨(k, globs.filterMap parseGlob), hmem, rfl⟩, ?_⟩
  refine List.mem_filterMap.mpr ⟨(k, p), ?_, by rw [if_pos rfl]⟩
  exact mem_mapPairs.mpr ⟨hp, globs.filterMap parseGlob, hmem, hmatch⟩

/-- Claim C10, witness: `a.txt` matches both the `txt` key (`*.txt`)
and the `a` key (`a*`) and is recorded under both. -/
theorem c10_witness :
    (∃ l, ("txt", l) ∈ walkRepoGlobsMap tcScenario [("txt", ["*.txt"]), ("a", ["a*"])] ∧
        "a.txt" ∈ l) ∧
    ∃ l, ("a", l) ∈ walkRepoGlobsMap tcScenario [("txt", ["*.txt"]), ("a", ["a*"])] ∧
        "a.txt" ∈ l :=
  ⟨c10_claim tcScenario [("txt", ["*.txt"]), ("a", ["a*"])] "txt" ["*.txt"] "a.txt"
      (by decide) (by decide) (by decide),
   c10_claim tcScenario [("txt", ["*.txt"]), ("a", ["a*"])] "a" ["a*"] "a.txt"
      (by decide) (by decide) (by decide)⟩

